import Mathlib

/-!
Verification of the bigram name model (`src/main.rs`) against its
natural-language specification.

The Rust program is shallowly embedded over `ℚ`:

* `f64` values are modelled as rationals.  The program only ever adds
  small integers and divides by integer-valued totals, so every value that
  the claims mention is exactly representable; the one place the two
  semantics part ways is division by zero (`f64` yields `inf`/`NaN`, `ℚ`
  yields `0`), and every theorem below that touches a quotient either
  carries a hypothesis making the divisor nonzero or only speaks about the
  state before the division.
* `usize`/`i64` are modelled as `ℕ`/`ℤ`; `usize` subtraction in
  `c as usize - 96` is modelled with release-mode wrapping semantics
  (`+ (2^64 - 96) mod 2^64`), so that a character below `'`'` produces a
  huge index exactly as the wrapped Rust value does.  In both debug and
  release builds such an input makes the program panic (at the subtraction
  or at the out-of-bounds indexing); in the model every panic surfaces as
  `Option.none`.
* Rust strings are modelled as `List Char`.  All strings the claims
  quantify over are ASCII, where byte indexing and char indexing coincide;
  for non-ASCII strings of two or more characters both the code
  (byte-boundary or bounds panic) and the model (`none` through an
  out-of-range index) fail.  The one divergence is a single non-ASCII
  character: its byte length is at least 2, so the Rust loop runs and
  panics on its byte windows, while the char-level model sees no adjacent
  pair; no theorem below quantifies over that case.
* Fallible code returns `Option`/`Except`; `none` models a Rust panic.
-/

namespace RustyBigram

section

attribute [local semireducible] Rat.add Rat.mul Rat.sub Rat.inv Rat.ofScientific

/-- A `Vec<Vec<f64>>` matrix. -/
abbrev Mat := List (List ℚ)

/-- Index of a bigram character, from the code's
`if chars[k] != '.' { idx = chars[k] as usize - 96 }`.
The subtraction is `usize` arithmetic; release-mode Rust wraps, which for
`c.toNat < 96` produces a huge index (and the subsequent indexing panics,
`none` in this model).  For `'a'..'z'` this is `c.toNat - 96 ∈ [1,26]`,
and `'.'` is `0`. -/
def bigramIdx (c : Char) : ℕ :=
  if c = '.' then 0 else (c.toNat + (2 ^ 64 - 96)) % 2 ^ 64

/-- Rust `matrix[first][second] += 1.0`, with `none` when an index is out of
bounds (a Rust panic). -/
def bumpCell (m : Mat) (i j : ℕ) : Option Mat :=
  match m[i]? with
  | none => none
  | some row =>
    match row[j]? with
    | none => none
    | some v => some (m.set i (row.set j (v + 1)))

/-- Rust `bigram_totals[first] += 1`, with `none` when the index is out of
bounds (a Rust panic). -/
def bumpTotal (t : List ℤ) (i : ℕ) : Option (List ℤ) :=
  match t[i]? with
  | none => none
  | some v => some (t.set i (v + 1))

/-- One iteration of the counting loop body of `create_bigram_matrix`. -/
def countStep (st : Mat × List ℤ) (p : Char × Char) : Option (Mat × List ℤ) :=
  match bumpCell st.1 (bigramIdx p.1) (bigramIdx p.2), bumpTotal st.2 (bigramIdx p.1) with
  | some m, some t => some (m, t)
  | _, _ => none

/-- The inner loop `for i in 0..name.len() - 1` of `create_bigram_matrix`
over one name.  For the empty name, `name.len() - 1` underflows `usize`
and the iteration panics (debug: at the subtraction; release: at the
out-of-range slice `name[0..2]`), hence `none`.  For a nonempty name the
iterated two-character windows are exactly `name.zip name.tail`. -/
def countName (st : Mat × List ℤ) (name : List Char) : Option (Mat × List ℤ) :=
  if name = [] then none else (name.zip name.tail).foldlM countStep st

/-- Rust `as i64` applied to an `f64`: truncation toward zero, saturating
at the `i64` bounds. -/
def i64OfRat (q : ℚ) : ℤ :=
  max (-(2 ^ 63)) (min (2 ^ 63 - 1)
    (if 0 ≤ q then ((q.num.toNat / q.den : ℕ) : ℤ) else -(((-q.num).toNat / q.den : ℕ) : ℤ)))

/-- Rust `vec![vec![smoothing; 27]; 27]` followed by `bigram_matrix[0][0] = 0.0`. -/
def initMatrix (smoothing : ℚ) : Mat :=
  (List.replicate 27 (List.replicate 27 smoothing)).set 0
    ((List.replicate 27 smoothing).set 0 0)

/-- Rust `vec![smoothing as i64; 27]` followed by `bigram_totals[0] = 0`. -/
def initTotals (smoothing : ℚ) : List ℤ :=
  (List.replicate 27 (i64OfRat smoothing)).set 0 0

/-- The state of `create_bigram_matrix` after the counting loops, before
normalization. -/
def buildCounts (names : List (List Char)) (smoothing : ℚ) : Option (Mat × List ℤ) :=
  names.foldlM countName (initMatrix smoothing, initTotals smoothing)

/-- The normalization loop `bigram_matrix[i][j] /= bigram_totals[i] as f64`.
Note the semantic caveat: when a total is `0`, Rust `f64` division yields
`inf`/`NaN` while `ℚ` division yields `0`; theorems about normalized cells
therefore always establish (or assume) a nonzero total. -/
def normalizeRows (m : Mat) (t : List ℤ) : Mat :=
  List.zipWith (fun row tot => row.map (fun v => v / (tot : ℚ))) m t

/-- Function `create_bigram_matrix` from `src/main.rs`. -/
def create_bigram_matrix (names : List (List Char)) (smoothing : ℚ) : Option Mat :=
  (buildCounts names smoothing).map (fun st => normalizeRows st.1 st.2)

/-- Function `likelihood_of_word` from `src/main.rs`: the accumulator loop over the
two-character windows of `word`.  For the empty word, `word.len() - 1`
underflows and the function panics (`none`); for a one-character ASCII
word the loop body never runs and the initial accumulator `1.0` is
returned.  Caveat: Rust's loop bound is the byte length, so a single
non-ASCII character (byte length at least 2) makes the code run the loop
and panic, while this char-level model returns the empty product; the
theorems below therefore only speak about one-character words that are
ASCII. -/
def likelihood_of_word (word : List Char) (bigram_matrix : Mat) : Option ℚ :=
  if word = [] then none
  else
    (word.zip word.tail).foldlM
      (fun acc p =>
        match bigram_matrix[bigramIdx p.1]? with
        | none => none
        | some row =>
          match row[bigramIdx p.2]? with
          | none => none
          | some v => some (acc * v)) 1

/-- Modelled from Rust `char::is_alphabetic` (the Unicode `Alphabetic`
property).  The model is exact on code points up to U+00FF (ASCII and the
Latin-1 Supplement); code points above U+00FF are outside the modelled
fragment and no theorem below depends on them. -/
def rustIsAlphabetic (c : Char) : Bool :=
  (65 ≤ c.toNat && c.toNat ≤ 90) || (97 ≤ c.toNat && c.toNat ≤ 122) ||
  c.toNat == 0xAA || c.toNat == 0xB5 || c.toNat == 0xBA ||
  (0xC0 ≤ c.toNat && c.toNat ≤ 0xFF && c.toNat != 0xD7 && c.toNat != 0xF7)

/-- Modelled from Rust `str::to_lowercase`, per character; exact on code
points up to U+00FF: uppercase ASCII and Latin-1 uppercase letters map by
`+32`, micro sign U+00B5 maps to Greek small mu U+03BC, and everything
else in the fragment maps to itself. -/
def rustToLowercase (c : Char) : List Char :=
  if 65 ≤ c.toNat ∧ c.toNat ≤ 90 then [Char.ofNat (c.toNat + 32)]
  else if c.toNat = 0xB5 then [Char.ofNat 0x3BC]
  else if 0xC0 ≤ c.toNat ∧ c.toNat ≤ 0xDE ∧ c.toNat ≠ 0xD7 then [Char.ofNat (c.toNat + 32)]
  else [c]

/-- Function `clean_name` from `src/main.rs`: keep alphabetic characters, lowercase
them, and wrap the result in one boundary dot on each side. -/
def clean_name (name : List Char) : List Char :=
  '.' :: ((name.filter rustIsAlphabetic).flatMap rustToLowercase ++ ['.'])

/-- The error type of `rand`'s `WeightedIndex::new` (the spec calls the
zero-total case `InvalidDistribution`; `rand` names it `AllWeightsZero`). -/
inductive WeightedError where
  | noItem
  | invalidWeight
  | allWeightsZero
deriving DecidableEq

/-- Modelled from `rand`'s `WeightedIndex::new`: errors on an empty weight
sequence, on any negative weight, and on a zero total weight; otherwise
the distribution (kept as the weight list). -/
def weightedIndexNew (weights : List ℚ) : Except WeightedError (List ℚ) :=
  if weights.isEmpty then .error .noItem
  else if weights.any (fun w => decide (w < 0)) then .error .invalidWeight
  else if weights.sum = 0 then .error .allWeightsZero
  else .ok weights

/-- Modelled from `rand`'s `WeightedIndex::sample`: the sampled uniform
draw `x ∈ [0, total)` selects the first index whose cumulative weight
exceeds `x`.  A zero-weight index is never selected for `x ≥ 0`. -/
def pickIndex (ws : List ℚ) (x : ℚ) : ℕ :=
  match ws with
  | [] => 0
  | w :: rest => if x < w then 0 else pickIndex rest (x - w) + 1

/-- Function `sample_next_char` from `src/main.rs`.  The draw `x` stands for the
uniform random value consumed from the RNG.  The code calls `.unwrap()` on
`WeightedIndex::new`, so a construction error is a panic: `none`. -/
def sample_next_char (probablities : List ℚ) (x : ℚ) : Option ℕ :=
  match weightedIndexNew probablities with
  | .error _ => none
  | .ok ws => some (pickIndex ws x)

/-- Function `int_to_char` from `src/main.rs`; `(index as u8 + 96) as char` with
`u8` wrapping. -/
def int_to_char (index : ℕ) : Char :=
  if index = 0 then '.' else Char.ofNat ((index % 256 + 96) % 256)

/-- The sampling loop of `main`: draw the next character from the current
character's row, append it, stop as soon as the boundary is drawn.  The
list `draws` supplies the successive uniform random values; `none` means
the supplied draws ran out before the loop terminated, or a panic. -/
def genLoop (m : Mat) : List ℚ → ℕ → Option (List Char)
  | [], _ => none
  | x :: rest, current =>
    match m[current]? with
    | none => none
    | some row =>
      match sample_next_char row x with
      | none => none
      | some next =>
        if next = 0 then some [int_to_char next]
        else (genLoop m rest next).map (fun tail => int_to_char next :: tail)

/-- One round of the generation loop of `main`: the name starts with
`int_to_char 0 = '.'` and the loop appends drawn characters until the
boundary is drawn. -/
def generate (m : Mat) (draws : List ℚ) : Option (List Char) :=
  (genLoop m draws 0).map (fun l => int_to_char 0 :: l)

/-! ### Specification-side vocabulary -/

/-- The 27-symbol alphabet of the spec: the boundary dot and `'a'..'z'`. -/
def isAlphabetChar (c : Char) : Bool :=
  c == '.' || (97 ≤ c.toNat && c.toNat ≤ 122)

/-- A lowercase ASCII letter. -/
def isLowerLetter (c : Char) : Bool :=
  97 ≤ c.toNat && c.toNat ≤ 122

/-- A Normalized Name in the spec's sense: a boundary dot, a (possibly
empty) lowercase-letter interior, and a closing boundary dot. -/
def isNormalizedName (n : List Char) : Bool :=
  match n with
  | [] => false
  | c :: rest =>
    c == '.' && !rest.isEmpty && rest.dropLast.all isLowerLetter &&
      rest.getLast? == some '.'

/-- The spec's index mapping: boundary to `0`, letters to `1..26`. -/
def specIdx (c : Char) : ℕ := if c = '.' then 0 else c.toNat - 96

/-- The adjacent-pair (sliding window of length 2) list of a name. -/
def pairsOfName (n : List Char) : List (Char × Char) := n.zip n.tail

/-- All adjacent pairs contributed by a corpus, in counting order. -/
def bigPairs (names : List (List Char)) : List (Char × Char) :=
  names.flatMap pairsOfName

/-- How many pairs of `ps` the counting loop maps to cell `(i, j)`. -/
def pcount (ps : List (Char × Char)) (i j : ℕ) : ℕ :=
  ps.countP (fun p => bigramIdx p.1 == i && bigramIdx p.2 == j)

/-- How many pairs of `ps` the counting loop maps to row `i`. -/
def prow (ps : List (Char × Char)) (i : ℕ) : ℕ :=
  ps.countP (fun p => bigramIdx p.1 == i)

/-- Total read of cell `(i, j)`, with default `0` out of range. -/
def cellD (m : Mat) (i j : ℕ) : ℚ := ((m[i]?.getD [])[j]?).getD 0

/-- Total read of row total `i`, with default `0` out of range. -/
def totD (t : List ℤ) (i : ℕ) : ℤ := (t[i]?).getD 0

/-- The sum of row `i` of a matrix. -/
def rowSumD (m : Mat) (i : ℕ) : ℚ := (m[i]?.getD []).sum

/-- Adjacent occurrence of two boundary dots. -/
def hasDoubleDot (l : List Char) : Bool :=
  (l.zip l.tail).any (fun p => p.1 == '.' && p.2 == '.')

/-- The shape invariant of the builder state: a 27×27 matrix and 27 totals. -/
def WFst (st : Mat × List ℤ) : Prop :=
  st.1.length = 27 ∧ (∀ row ∈ st.1, row.length = 27) ∧ st.2.length = 27

/-! ### Concrete inputs used by witnesses and counterexamples -/

/-- The normalized name `.emma.` (the spec's worked example). -/
def emmaName : List Char := ['.', 'e', 'm', 'm', 'a', '.']

/-- The degenerate normalized name `..` that `clean_name` produces on
input with no alphabetic character (e.g. the empty line a trailing
newline in `names.txt` yields). -/
def ddName : List Char := ['.', '.']

/-- The normalized name `.mmmmmm.`, whose `m→m` bigram is observed five
times. -/
def mmName : List Char := ['.', 'm', 'm', 'm', 'm', 'm', 'm', '.']

/-! ### Character-level lemmas -/

lemma pow64 : (2 : ℕ) ^ 64 = 18446744073709551616 := by norm_num

lemma bigramIdx_of_lower {c : Char} (h : isLowerLetter c = true) :
    bigramIdx c = c.toNat - 96 ∧ 1 ≤ bigramIdx c ∧ bigramIdx c ≤ 26 := by
  simp only [isLowerLetter, Bool.and_eq_true, decide_eq_true_eq] at h
  have hne : c ≠ '.' := by
    rintro rfl
    exact absurd h (by decide)
  simp only [bigramIdx, if_neg hne, pow64]
  omega

lemma bigramIdx_alpha {c : Char} (h : isAlphabetChar c = true) :
    bigramIdx c ≤ 26 ∧ bigramIdx c = specIdx c := by
  simp only [isAlphabetChar, Bool.or_eq_true, beq_iff_eq, Bool.and_eq_true,
    decide_eq_true_eq] at h
  rcases h with h | h
  · subst h; exact ⟨by norm_num [bigramIdx], rfl⟩
  · have hl : isLowerLetter c = true := by
      simp [isLowerLetter, h.1, h.2]
    obtain ⟨he, h1, h2⟩ := bigramIdx_of_lower hl
    have hne : c ≠ '.' := by
      rintro rfl
      exact absurd h (by decide)
    exact ⟨h2, by simp [he, specIdx, if_neg hne]⟩

/-! ### Characterization of the counting loop -/

lemma bumpCell_char {m : Mat} {i j : ℕ} (hm : m.length = 27)
    (hr : ∀ row ∈ m, row.length = 27) (hi : i < 27) (hj : j < 27) :
    ∃ m', bumpCell m i j = some m' ∧ m'.length = 27 ∧ (∀ row ∈ m', row.length = 27) ∧
      ∀ a b, cellD m' a b = cellD m a b + if a = i ∧ b = j then 1 else 0 := by
  have hi' : i < m.length := by omega
  have hrow : m[i]? = some m[i] := List.getElem?_eq_getElem hi'
  have hrl : m[i].length = 27 := hr _ (List.getElem_mem hi')
  have hj' : j < m[i].length := by omega
  have hv : m[i][j]? = some m[i][j] := List.getElem?_eq_getElem hj'
  refine ⟨m.set i (m[i].set j (m[i][j] + 1)), ?_, ?_, ?_, ?_⟩
  · simp [bumpCell, hrow, hv]
  · simp [hm]
  · intro row hrow'
    rcases List.mem_or_eq_of_mem_set hrow' with h | h
    · exact hr _ h
    · simp [h, hrl]
  · intro a b
    by_cases ha : a = i
    · subst ha
      have : (m.set a (m[a].set j (m[a][j] + 1)))[a]? = some (m[a].set j (m[a][j] + 1)) :=
        List.getElem?_set_eq_of_lt _ hi'
      simp only [cellD, this, Option.getD_some]
      by_cases hb : b = j
      · subst hb
        have : (m[a].set b (m[a][b] + 1))[b]? = some (m[a][b] + 1) :=
          List.getElem?_set_eq_of_lt _ hj'
        simp [this, hrow, hv]
      · have : (m[a].set j (m[a][j] + 1))[b]? = m[a][b]? :=
          List.getElem?_set_ne (by omega)
        simp [this, hrow, hb]
    · have : (m.set i (m[i].set j (m[i][j] + 1)))[a]? = m[a]? :=
        List.getElem?_set_ne (by omega)
      simp [cellD, this, ha]

lemma bumpTotal_char {t : List ℤ} {i : ℕ} (ht : t.length = 27) (hi : i < 27) :
    ∃ t', bumpTotal t i = some t' ∧ t'.length = 27 ∧
      ∀ a, totD t' a = totD t a + if a = i then 1 else 0 := by
  have hi' : i < t.length := by omega
  have hv : t[i]? = some t[i] := List.getElem?_eq_getElem hi'
  refine ⟨t.set i (t[i] + 1), ?_, ?_, ?_⟩
  · simp [bumpTotal, hv]
  · simp [ht]
  · intro a
    by_cases ha : a = i
    · subst ha
      have : (t.set a (t[a] + 1))[a]? = some (t[a] + 1) := List.getElem?_set_eq_of_lt _ hi'
      simp [totD, this, hv]
    · have : (t.set i (t[i] + 1))[a]? = t[a]? := List.getElem?_set_ne (by omega)
      simp [totD, this, ha]

lemma countStep_char {st : Mat × List ℤ} {p : Char × Char} (hwf : WFst st)
    (h1 : bigramIdx p.1 < 27) (h2 : bigramIdx p.2 < 27) :
    ∃ st', countStep st p = some st' ∧ WFst st' ∧
      (∀ a b, cellD st'.1 a b =
        cellD st.1 a b + if a = bigramIdx p.1 ∧ b = bigramIdx p.2 then 1 else 0) ∧
      (∀ a, totD st'.2 a = totD st.2 a + if a = bigramIdx p.1 then 1 else 0) := by
  obtain ⟨hm, hr, ht⟩ := hwf
  obtain ⟨m', hm'eq, hm'len, hm'rows, hm'cells⟩ := bumpCell_char hm hr h1 h2
  obtain ⟨t', ht'eq, ht'len, ht'tot⟩ := bumpTotal_char ht h1
  exact ⟨(m', t'), by simp [countStep, hm'eq, ht'eq], ⟨hm'len, hm'rows, ht'len⟩,
    hm'cells, ht'tot⟩

lemma pcount_cons (p : Char × Char) (ps : List (Char × Char)) (a b : ℕ) :
    pcount (p :: ps) a b =
      pcount ps a b + if a = bigramIdx p.1 ∧ b = bigramIdx p.2 then 1 else 0 := by
  simp only [pcount, List.countP_cons, Bool.and_eq_true, beq_iff_eq]
  by_cases h : a = bigramIdx p.1 ∧ b = bigramIdx p.2
  · rw [if_pos ⟨h.1.symm, h.2.symm⟩, if_pos h]
  · rw [if_neg (fun hc => h ⟨hc.1.symm, hc.2.symm⟩), if_neg h]

lemma prow_cons (p : Char × Char) (ps : List (Char × Char)) (a : ℕ) :
    prow (p :: ps) a = prow ps a + if a = bigramIdx p.1 then 1 else 0 := by
  simp only [prow, List.countP_cons, beq_iff_eq]
  by_cases h : a = bigramIdx p.1
  · rw [if_pos h.symm, if_pos h]
  · rw [if_neg (fun hc => h hc.symm), if_neg h]

lemma countFold_char (ps : List (Char × Char)) :
    ∀ st : Mat × List ℤ, WFst st →
      (∀ p ∈ ps, bigramIdx p.1 < 27 ∧ bigramIdx p.2 < 27) →
      ∃ st', ps.foldlM countStep st = some st' ∧ WFst st' ∧
        (∀ a b, cellD st'.1 a b = cellD st.1 a b + pcount ps a b) ∧
        (∀ a, totD st'.2 a = totD st.2 a + prow ps a) := by
  induction ps with
  | nil =>
    intro st hwf _
    exact ⟨st, rfl, hwf, by simp [pcount], by simp [prow]⟩
  | cons p ps ih =>
    intro st hwf hidx
    obtain ⟨st₁, h₁, hwf₁, hcell₁, htot₁⟩ :=
      countStep_char hwf (hidx p (List.mem_cons_self p ps)).1
        (hidx p (List.mem_cons_self p ps)).2
    obtain ⟨st', h', hwf', hcell', htot'⟩ :=
      ih st₁ hwf₁ (fun q hq => hidx q (List.mem_cons_of_mem _ hq))
    refine ⟨st', by simp [List.foldlM_cons, h₁, h'], hwf', ?_, ?_⟩
    · intro a b
      rw [hcell' a b, hcell₁ a b, pcount_cons]
      push_cast
      ring
    · intro a
      rw [htot' a, htot₁ a, prow_cons]
      push_cast
      ring

lemma WFst_init (s : ℚ) : WFst (initMatrix s, initTotals s) := by
  refine ⟨by simp [initMatrix], ?_, by simp [initTotals]⟩
  intro row hrow
  rcases List.mem_or_eq_of_mem_set hrow with h | h
  · simp [List.eq_of_mem_replicate h]
  · simp [h]

lemma cellD_init (s : ℚ) {i j : ℕ} (hi : i < 27) (hj : j < 27) :
    cellD (initMatrix s) i j = if i = 0 ∧ j = 0 then 0 else s := by
  by_cases h0 : i = 0
  · subst h0
    have hrow : (initMatrix s)[0]? = some ((List.replicate 27 s).set 0 0) := by
      apply List.getElem?_set_eq_of_lt
      simp
    by_cases hj0 : j = 0
    · subst hj0
      have : ((List.replicate 27 s).set 0 0)[0]? = some 0 := by
        apply List.getElem?_set_eq_of_lt
        simp
      simp [cellD, hrow, this]
    · have hcell : ((List.replicate 27 s).set 0 0)[j]? = (List.replicate 27 s)[j]? :=
        List.getElem?_set_ne (fun h => hj0 h.symm)
      have hrep : (List.replicate 27 s)[j]? = some s := by
        rw [List.getElem?_replicate, if_pos hj]
      simp only [cellD, hrow, Option.getD_some, hcell, hrep]
      simp [hj0]
  · have hrow : (initMatrix s)[i]? = (List.replicate 27 (List.replicate 27 s))[i]? :=
      List.getElem?_set_ne (fun h => h0 h.symm)
    have hrep : (List.replicate 27 (List.replicate 27 s))[i]? = some (List.replicate 27 s) := by
      rw [List.getElem?_replicate, if_pos hi]
    have hrep2 : (List.replicate 27 s)[j]? = some s := by
      rw [List.getElem?_replicate, if_pos hj]
    simp only [cellD, hrow, hrep, Option.getD_some, hrep2]
    simp [h0]

lemma totD_init (s : ℚ) {i : ℕ} (hi : i < 27) :
    totD (initTotals s) i = if i = 0 then 0 else i64OfRat s := by
  by_cases h0 : i = 0
  · subst h0
    have : (initTotals s)[0]? = some 0 := by
      apply List.getElem?_set_eq_of_lt
      simp
    simp [totD, this]
  · have hset : (initTotals s)[i]? = (List.replicate 27 (i64OfRat s))[i]? :=
      List.getElem?_set_ne (fun h => h0 h.symm)
    have hrep : (List.replicate 27 (i64OfRat s))[i]? = some (i64OfRat s) := by
      rw [List.getElem?_replicate, if_pos hi]
    simp only [totD, hset, hrep, Option.getD_some]
    simp [h0]

lemma countName_eq {st : Mat × List ℤ} {n : List Char} (h : n ≠ []) :
    countName st n = (pairsOfName n).foldlM countStep st := by
  simp [countName, pairsOfName, h]

lemma bigPairs_cons (n : List Char) (names : List (List Char)) :
    bigPairs (n :: names) = pairsOfName n ++ bigPairs names := by
  simp [bigPairs]

lemma pcount_append (ps qs : List (Char × Char)) (a b : ℕ) :
    pcount (ps ++ qs) a b = pcount ps a b + pcount qs a b := by
  simp [pcount, List.countP_append]

lemma prow_append (ps qs : List (Char × Char)) (a : ℕ) :
    prow (ps ++ qs) a = prow ps a + prow qs a := by
  simp [prow, List.countP_append]

lemma corpusFold_char (names : List (List Char)) :
    ∀ st : Mat × List ℤ, WFst st → (∀ n ∈ names, n ≠ []) →
      (∀ p ∈ bigPairs names, bigramIdx p.1 < 27 ∧ bigramIdx p.2 < 27) →
      ∃ st', names.foldlM countName st = some st' ∧ WFst st' ∧
        (∀ a b, cellD st'.1 a b = cellD st.1 a b + pcount (bigPairs names) a b) ∧
        (∀ a, totD st'.2 a = totD st.2 a + prow (bigPairs names) a) := by
  induction names with
  | nil =>
    intro st hwf _ _
    exact ⟨st, rfl, hwf, by simp [bigPairs, pcount], by simp [bigPairs, prow]⟩
  | cons n ns ih =>
    intro st hwf hne hidx
    have hn : n ≠ [] := hne n (List.mem_cons_self n ns)
    obtain ⟨st₁, h₁, hwf₁, hcell₁, htot₁⟩ :=
      countFold_char (pairsOfName n) st hwf
        (fun p hp => hidx p (by rw [bigPairs_cons]; exact List.mem_append_left _ hp))
    obtain ⟨st', h', hwf', hcell', htot'⟩ :=
      ih st₁ hwf₁ (fun m hm => hne m (List.mem_cons_of_mem _ hm))
        (fun p hp => hidx p (by rw [bigPairs_cons]; exact List.mem_append_right _ hp))
    refine ⟨st', ?_, hwf', ?_, ?_⟩
    · rw [List.foldlM_cons, countName_eq hn, h₁]
      exact h'
    · intro a b
      rw [hcell' a b, hcell₁ a b, bigPairs_cons, pcount_append]
      push_cast
      ring
    · intro a
      rw [htot' a, htot₁ a, bigPairs_cons, prow_append]
      push_cast
      ring

/-- Characterization of `buildCounts`: on a corpus of nonempty in-range
names it succeeds, and the resulting cells and totals are the smoothed
initialization plus the observed bigram counts. -/
lemma buildCounts_char (names : List (List Char)) (s : ℚ)
    (hne : ∀ n ∈ names, n ≠ [])
    (hidx : ∀ p ∈ bigPairs names, bigramIdx p.1 < 27 ∧ bigramIdx p.2 < 27) :
    ∃ M T, buildCounts names s = some (M, T) ∧ WFst (M, T) ∧
      (∀ i j, i < 27 → j < 27 → cellD M i j =
        (if i = 0 ∧ j = 0 then 0 else s) + pcount (bigPairs names) i j) ∧
      (∀ i, i < 27 → totD T i =
        (if i = 0 then 0 else i64OfRat s) + prow (bigPairs names) i) := by
  obtain ⟨st', h', hwf', hcell', htot'⟩ :=
    corpusFold_char names (initMatrix s, initTotals s) (WFst_init s) hne hidx
  refine ⟨st'.1, st'.2, by simpa [buildCounts] using h', by simpa using hwf', ?_, ?_⟩
  · intro i j hi hj
    rw [hcell' i j]
    simp [cellD_init s hi hj]
  · intro i hi
    rw [htot' i]
    simp [totD_init s hi]

lemma normalizeRows_cells {m : Mat} {t : List ℤ} (hm : m.length = 27)
    (ht : t.length = 27) {i : ℕ} (hi : i < 27) (j : ℕ) :
    cellD (normalizeRows m t) i j = cellD m i j / (totD t i : ℚ) := by
  have h1 : i < m.length := by omega
  have h2 : i < t.length := by omega
  have hlen : i < (normalizeRows m t).length := by
    simp [normalizeRows, List.length_zipWith]
    omega
  have hrow : (normalizeRows m t)[i]? = some (m[i].map (fun v => v / (t[i] : ℚ))) := by
    rw [List.getElem?_eq_getElem hlen]
    simp [normalizeRows, List.getElem_zipWith]
  have hmi : m[i]? = some m[i] := List.getElem?_eq_getElem h1
  have hti : t[i]? = some t[i] := List.getElem?_eq_getElem h2
  simp only [cellD, totD, hrow, hmi, hti, Option.getD_some, List.getElem?_map]
  cases hcell : m[i][j]? with
  | none => simp
  | some v => simp

lemma normalizeRows_WF {m : Mat} {t : List ℤ} (hm : m.length = 27)
    (ht : t.length = 27) (hr : ∀ row ∈ m, row.length = 27) :
    (normalizeRows m t).length = 27 ∧ ∀ row ∈ normalizeRows m t, row.length = 27 := by
  constructor
  · simp [normalizeRows, List.length_zipWith]
    omega
  · intro row hrow
    rw [List.mem_iff_getElem?] at hrow
    obtain ⟨i, hrow⟩ := hrow
    have hlen : i < (normalizeRows m t).length := by
      by_contra h
      rw [List.getElem?_eq_none (by omega)] at hrow
      exact Option.noConfusion hrow
    have h1 : i < m.length := by
      simp [normalizeRows, List.length_zipWith] at hlen
      omega
    rw [List.getElem?_eq_getElem hlen] at hrow
    have : row = m[i].map (fun v => v / (t[i] : ℚ)) := by
      have := List.getElem_zipWith (f := fun (row : List ℚ) (tot : ℤ) =>
        row.map (fun v => v / (tot : ℚ))) (h := hlen)
      simp only [normalizeRows] at hrow ⊢
      rw [this] at hrow
      exact (Option.some.injEq _ _).mp hrow |>.symm
    rw [this]
    simp [hr _ (List.getElem_mem h1)]

/-- Master characterization of `create_bigram_matrix`: the value of every
cell of the returned matrix is `(init + count) / (initTotal + rowCount)`
with the code's initialization (smoothing everywhere except cell `(0,0)`;
`smoothing as i64` totals except row `0`). -/
lemma create_cells (names : List (List Char)) (s : ℚ)
    (hne : ∀ n ∈ names, n ≠ [])
    (hidx : ∀ p ∈ bigPairs names, bigramIdx p.1 < 27 ∧ bigramIdx p.2 < 27) :
    ∃ M, create_bigram_matrix names s = some M ∧
      M.length = 27 ∧ (∀ row ∈ M, row.length = 27) ∧
      (∀ i j, i < 27 → j < 27 → cellD M i j =
        ((if i = 0 ∧ j = 0 then 0 else s) + pcount (bigPairs names) i j) /
          (((if i = 0 then 0 else i64OfRat s) + prow (bigPairs names) i : ℤ) : ℚ)) := by
  obtain ⟨B, T, hB, ⟨hBlen, hBrows, hTlen⟩, hcells, htots⟩ := buildCounts_char names s hne hidx
  obtain ⟨hNlen, hNrows⟩ := normalizeRows_WF hBlen hTlen hBrows
  refine ⟨normalizeRows B T, by simp [create_bigram_matrix, hB], hNlen, hNrows, ?_⟩
  intro i j hi hj
  rw [normalizeRows_cells hBlen hTlen hi j, hcells i j hi hj, htots i hi]

/-! ### Normalized names -/

lemma isNormalizedName_iff {n : List Char} :
    isNormalizedName n = true ↔
      ∃ mid : List Char, mid.all isLowerLetter = true ∧ n = ('.' :: mid) ++ ['.'] := by
  constructor
  · intro h
    match n with
    | [] => simp [isNormalizedName] at h
    | c :: rest =>
      simp only [isNormalizedName, Bool.and_eq_true, beq_iff_eq,
        Bool.not_eq_true'] at h
      obtain ⟨⟨⟨hc, hrest⟩, hmid⟩, hlast⟩ := h
      refine ⟨rest.dropLast, hmid, ?_⟩
      have hlast' : rest.getLast? = some '.' := hlast
      rw [hc, List.cons_append, List.dropLast_append_getLast? '.' hlast']
  · rintro ⟨mid, hmid, rfl⟩
    simp [isNormalizedName, List.dropLast_concat, hmid]

lemma normalized_chars {n : List Char} (h : isNormalizedName n = true) :
    ∀ c ∈ n, isAlphabetChar c = true := by
  rw [isNormalizedName_iff] at h
  obtain ⟨mid, hmid, rfl⟩ := h
  intro c hc
  simp only [List.cons_append, List.mem_cons, List.mem_append,
    List.mem_singleton, List.not_mem_nil, or_false] at hc
  rcases hc with rfl | hc | rfl
  · simp [isAlphabetChar]
  · have := List.all_eq_true.mp hmid c hc
    simp only [isAlphabetChar, Bool.or_eq_true]
    right
    exact this
  · simp [isAlphabetChar]

lemma normalized_ne_nil {n : List Char} (h : isNormalizedName n = true) : n ≠ [] := by
  rw [isNormalizedName_iff] at h
  obtain ⟨mid, _, rfl⟩ := h
  simp

lemma alphabet_idx_lt {n : List Char} (hall : ∀ c ∈ n, isAlphabetChar c = true) :
    ∀ p ∈ pairsOfName n, bigramIdx p.1 < 27 ∧ bigramIdx p.2 < 27 := by
  intro p hp
  obtain ⟨h1, h2⟩ := List.of_mem_zip hp
  have hb1 := (bigramIdx_alpha (hall _ h1)).1
  have hb2 := (bigramIdx_alpha (hall _ (List.mem_of_mem_tail h2))).1
  omega

lemma bigPairs_idx_lt {names : List (List Char)}
    (hall : ∀ n ∈ names, ∀ c ∈ n, isAlphabetChar c = true) :
    ∀ p ∈ bigPairs names, bigramIdx p.1 < 27 ∧ bigramIdx p.2 < 27 := by
  intro p hp
  simp only [bigPairs, List.mem_flatMap] at hp
  obtain ⟨n, hn, hp⟩ := hp
  exact alphabet_idx_lt (hall n hn) p hp

/-- Within `(c :: xs) ++ ['.']` where `c` and all of `xs` are lowercase
letters, every adjacent pair contains a lowercase letter. -/
lemma pairs_have_letter_aux (xs : List Char) :
    ∀ c : Char, isLowerLetter c = true → xs.all isLowerLetter = true →
      ∀ p ∈ pairsOfName ((c :: xs) ++ ['.']),
        isLowerLetter p.1 = true ∨ isLowerLetter p.2 = true := by
  induction xs with
  | nil =>
    intro c hc _ p hp
    have hps : pairsOfName ((c :: []) ++ ['.']) = [(c, '.')] := rfl
    rw [hps] at hp
    rcases List.mem_singleton.mp hp with rfl
    exact Or.inl hc
  | cons a xs ih =>
    intro c hc hall p hp
    simp only [List.all_cons, Bool.and_eq_true] at hall
    have hps : pairsOfName ((c :: a :: xs) ++ ['.'])
        = (c, a) :: pairsOfName ((a :: xs) ++ ['.']) := rfl
    rw [hps] at hp
    rcases List.mem_cons.mp hp with rfl | hp
    · exact Or.inl hc
    · exact ih a hall.1 hall.2 p hp

/-- In a corpus of normalized names none of which is the degenerate name
`..`, no adjacent pair maps to cell `(0,0)`. -/
lemma pcount00_eq_zero {names : List (List Char)}
    (h : ∀ n ∈ names, isNormalizedName n = true ∧ n ≠ ['.', '.']) :
    pcount (bigPairs names) 0 0 = 0 := by
  rw [pcount, List.countP_eq_zero]
  intro p hp
  simp only [bigPairs, List.mem_flatMap] at hp
  obtain ⟨n, hn, hp⟩ := hp
  obtain ⟨hnorm, hne⟩ := h n hn
  rw [isNormalizedName_iff] at hnorm
  obtain ⟨mid, hmid, rfl⟩ := hnorm
  match mid with
  | [] => exact absurd rfl hne
  | c :: xs =>
    simp only [List.all_cons, Bool.and_eq_true] at hmid
    have hps : pairsOfName (('.' :: (c :: xs)) ++ ['.'])
        = ('.', c) :: pairsOfName ((c :: xs) ++ ['.']) := rfl
    rw [hps] at hp
    simp only [Bool.and_eq_true, beq_iff_eq, not_and]
    intro h1 h2
    rcases List.mem_cons.mp hp with rfl | hp
    · have := (bigramIdx_of_lower hmid.1).2.1
      simp only at h2
      omega
    · rcases pairs_have_letter_aux xs c hmid.1 hmid.2 p hp with hl | hl
      · have := (bigramIdx_of_lower hl).2.1
        omega
      · have := (bigramIdx_of_lower hl).2.1
        omega

/-- Every normalized name contributes at least one pair in row `0` (its
leading boundary). -/
lemma prow0_pos {names : List (List Char)} (hne : names ≠ [])
    (h : ∀ n ∈ names, isNormalizedName n = true) :
    1 ≤ prow (bigPairs names) 0 := by
  match names with
  | [] => exact absurd rfl hne
  | n :: ns =>
    have hnorm := h n (List.mem_cons_self n ns)
    rw [isNormalizedName_iff] at hnorm
    obtain ⟨mid, hmid, hn⟩ := hnorm
    have hpair : ∃ q ∈ pairsOfName n, bigramIdx q.1 = 0 := by
      rw [hn]
      match mid with
      | [] => exact ⟨('.', '.'), by simp [pairsOfName], by simp [bigramIdx]⟩
      | c :: xs =>
        refine ⟨('.', c), ?_, by simp [bigramIdx]⟩
        have hps : pairsOfName (('.' :: (c :: xs)) ++ ['.'])
            = ('.', c) :: pairsOfName ((c :: xs) ++ ['.']) := rfl
        rw [hps]
        exact List.mem_cons_self _ _
    obtain ⟨q, hq, hq0⟩ := hpair
    have hqbig : q ∈ bigPairs (n :: ns) := by
      rw [bigPairs_cons]
      exact List.mem_append_left _ hq
    rw [prow]
    have hpos : 0 < (bigPairs (n :: ns)).countP (fun p => bigramIdx p.1 == 0) := by
      rw [List.countP_pos_iff]
      exact ⟨q, hqbig, by simp [hq0]⟩
    omega

/-! ### The scorer -/

lemma cellD_eq_getElem {m : Mat} {i j : ℕ} (hi : i < m.length) (hj : j < m[i].length) :
    cellD m i j = m[i][j] := by
  rw [cellD, List.getElem?_eq_getElem hi]
  simp [List.getElem?_eq_getElem hj]

lemma likelihood_fold_eq {m : Mat} (hm : m.length = 27)
    (hr : ∀ row ∈ m, row.length = 27) :
    ∀ (ps : List (Char × Char)) (acc : ℚ),
      (∀ p ∈ ps, bigramIdx p.1 < 27 ∧ bigramIdx p.2 < 27) →
      ps.foldlM
        (fun acc p =>
          match m[bigramIdx p.1]? with
          | none => none
          | some row =>
            match row[bigramIdx p.2]? with
            | none => none
            | some v => some (acc * v)) acc
        = some (acc * (ps.map (fun p => cellD m (bigramIdx p.1) (bigramIdx p.2))).prod) := by
  intro ps
  induction ps with
  | nil =>
    intro acc _
    simp
  | cons p ps ih =>
    intro acc hidx
    have h1 : bigramIdx p.1 < m.length := by
      rw [hm]
      exact (hidx p (List.mem_cons_self p ps)).1
    have h2 : bigramIdx p.2 < m[bigramIdx p.1].length := by
      rw [hr _ (List.getElem_mem h1)]
      exact (hidx p (List.mem_cons_self p ps)).2
    rw [List.foldlM_cons, List.getElem?_eq_getElem h1]
    simp only [List.getElem?_eq_getElem h2, Option.bind_eq_bind, Option.some_bind]
    rw [ih (acc * m[bigramIdx p.1][bigramIdx p.2])
      (fun q hq => hidx q (List.mem_cons_of_mem _ hq))]
    simp only [List.map_cons, List.prod_cons]
    rw [← cellD_eq_getElem h1 h2, mul_assoc]

/-- On a nonempty alphabet word and a 27×27 matrix, the scorer succeeds
and returns the product over adjacent pairs of the indexed cells. -/
lemma likelihood_eq_prod {word : List Char} {m : Mat} (hw : word ≠ [])
    (hall : ∀ c ∈ word, isAlphabetChar c = true)
    (hm : m.length = 27) (hr : ∀ row ∈ m, row.length = 27) :
    likelihood_of_word word m =
      some (((pairsOfName word).map
        (fun p => cellD m (bigramIdx p.1) (bigramIdx p.2))).prod) := by
  rw [likelihood_of_word, if_neg hw]
  have := likelihood_fold_eq hm hr (word.zip word.tail) 1 (alphabet_idx_lt hall)
  rw [this, one_mul]
  rfl

/-! ### Arithmetic helpers -/

lemma pcount_le_prow (ps : List (Char × Char)) (i j : ℕ) :
    pcount ps i j ≤ prow ps i := by
  induction ps with
  | nil => simp [pcount, prow]
  | cons p ps ih =>
    rw [pcount_cons, prow_cons]
    by_cases h : i = bigramIdx p.1 ∧ j = bigramIdx p.2
    · rw [if_pos h, if_pos h.1]
      omega
    · rw [if_neg h]
      by_cases h1 : i = bigramIdx p.1
      · rw [if_pos h1]
        omega
      · rw [if_neg h1]
        omega

lemma i64OfRat_natCast (n : ℕ) (hn : n < 2 ^ 63) : i64OfRat (n : ℚ) = n := by
  rw [i64OfRat]
  have h0 : (0 : ℚ) ≤ (n : ℚ) := by positivity
  rw [if_pos h0, Rat.num_natCast, Rat.den_natCast]
  have : ((n : ℤ).toNat / 1 : ℕ) = n := by simp
  rw [this]
  have h1 : ((n : ℤ)) ≤ 2 ^ 63 - 1 := by omega
  have h2 : (-(2 ^ 63) : ℤ) ≤ n := by omega
  rw [min_eq_right h1, max_eq_right h2]

/-! ### The normalizer -/

lemma lower_ofNat_add32 {t : ℕ} (h1 : 65 ≤ t) (h2 : t ≤ 90) :
    isLowerLetter (Char.ofNat (t + 32)) = true := by
  interval_cases t <;> decide

lemma clean_name_head (name : List Char) : (clean_name name).head? = some '.' := rfl

lemma clean_name_last (name : List Char) : (clean_name name).getLast? = some '.' := by
  rw [clean_name, ← List.cons_append, List.getLast?_concat]

lemma clean_name_interior (name : List Char) :
    ((clean_name name).drop 1).dropLast =
      (name.filter rustIsAlphabetic).flatMap rustToLowercase := by
  rw [clean_name]
  simp [List.dropLast_concat]

lemma clean_name_interior_lower {name : List Char}
    (hascii : ∀ c ∈ name, c.toNat ≤ 127) :
    (((clean_name name).drop 1).dropLast).all isLowerLetter = true := by
  rw [clean_name_interior, List.all_eq_true]
  intro c' hc'
  rw [List.mem_flatMap] at hc'
  obtain ⟨c, hc, hc'⟩ := hc'
  have hcname : c ∈ name := List.mem_of_mem_filter hc
  have halpha : rustIsAlphabetic c = true := List.of_mem_filter hc
  have hle : c.toNat ≤ 127 := hascii c hcname
  simp only [rustIsAlphabetic, Bool.or_eq_true, Bool.and_eq_true, beq_iff_eq,
    bne_iff_ne, decide_eq_true_eq] at halpha
  rcases halpha with ((((hU | hL) | hA) | hB) | hC) | hD
  · rw [rustToLowercase, if_pos hU] at hc'
    rcases List.mem_singleton.mp hc' with rfl
    exact lower_ofNat_add32 hU.1 hU.2
  · have hnotU : ¬ (65 ≤ c.toNat ∧ c.toNat ≤ 90) := by omega
    have hnotB : ¬ c.toNat = 0xB5 := by omega
    have hnotC : ¬ (0xC0 ≤ c.toNat ∧ c.toNat ≤ 0xDE ∧ c.toNat ≠ 0xD7) := by omega
    rw [rustToLowercase, if_neg hnotU, if_neg hnotB, if_neg hnotC] at hc'
    rcases List.mem_singleton.mp hc' with rfl
    simp [isLowerLetter, hL.1, hL.2]
  · omega
  · omega
  · omega
  · omega

/-! ### The sampler and the generator -/

lemma weightedIndexNew_ok {ws out : List ℚ} (h : weightedIndexNew ws = .ok out) :
    out = ws := by
  rw [weightedIndexNew] at h
  split at h
  · exact Except.noConfusion h
  · split at h
    · exact Except.noConfusion h
    · split at h
      · exact Except.noConfusion h
      · exact (Except.ok.injEq _ _ ▸ h).symm

lemma pickIndex_le (ws : List ℚ) : ∀ x : ℚ, pickIndex ws x ≤ ws.length := by
  induction ws with
  | nil => intro x; simp [pickIndex]
  | cons w rest ih =>
    intro x
    rw [pickIndex]
    by_cases h : x < w
    · simp [h]
    · simp only [if_neg h, List.length_cons]
      have := ih (x - w)
      omega

lemma pickIndex_pos_weight (ws : List ℚ) :
    ∀ x : ℚ, 0 ≤ x → (∀ w ∈ ws, 0 ≤ w) → pickIndex ws x < ws.length →
      ∃ w, ws[pickIndex ws x]? = some w ∧ 0 < w := by
  induction ws with
  | nil => intro x _ _ h; simp at h
  | cons w rest ih =>
    intro x hx hnn hlt
    rw [pickIndex]
    by_cases h : x < w
    · refine ⟨w, by simp [h], ?_⟩
      exact lt_of_le_of_lt hx h
    · rw [pickIndex, if_neg h, List.length_cons] at hlt
      have hx' : 0 ≤ x - w := by
        simp only [not_lt] at h
        linarith
      obtain ⟨v, hv, hvpos⟩ := ih (x - w) hx' (fun u hu => hnn u (List.mem_cons_of_mem _ hu))
        (by omega)
      refine ⟨v, ?_, hvpos⟩
      simp only [if_neg h]
      simpa using hv

lemma genLoop_some_lt {m : Mat} {draws : List ℚ} {cur : ℕ} {tail : List Char}
    (h : genLoop m draws cur = some tail) : cur < m.length := by
  match draws with
  | [] => exact absurd h (by simp [genLoop])
  | x :: rest =>
    rw [genLoop] at h
    cases hrow : m[cur]? with
    | none => rw [hrow] at h; exact Option.noConfusion h
    | some row => exact (List.getElem?_eq_some.mp hrow).1

lemma int_to_char_lower {n : ℕ} (h1 : 1 ≤ n) (h2 : n ≤ 26) :
    isLowerLetter (int_to_char n) = true := by
  interval_cases n <;> decide

lemma lower_ne_dot {c : Char} (h : isLowerLetter c = true) : c ≠ '.' := by
  rintro rfl
  exact absurd h (by decide)

lemma pairsOfName_fst_mem_dropLast (l : List Char) :
    ∀ p ∈ pairsOfName l, p.1 ∈ l.dropLast := by
  match l with
  | [] => intro p hp; simp [pairsOfName] at hp
  | [a] => intro p hp; simp [pairsOfName] at hp
  | a :: b :: ts =>
    intro p hp
    have hps : pairsOfName (a :: b :: ts) = (a, b) :: pairsOfName (b :: ts) := rfl
    rw [hps] at hp
    have hdl : (a :: b :: ts).dropLast = a :: (b :: ts).dropLast := by
      simp
    rcases List.mem_cons.mp hp with rfl | hp
    · rw [hdl]; exact List.mem_cons_self _ _
    · rw [hdl]
      exact List.mem_cons_of_mem _ (pairsOfName_fst_mem_dropLast (b :: ts) p hp)

/-- Invariant of the generation loop: whatever string a terminating run
emits consists of lowercase letters followed by one final boundary dot;
started from the boundary state on a matrix whose `(0,0)` cell is zero,
it emits at least one letter before the dot. -/
lemma genLoop_spec {m : Mat} (hm : m.length = 27)
    (hr : ∀ row ∈ m, row.length = 27)
    (hnn : ∀ row ∈ m, ∀ w ∈ row, 0 ≤ w) (h00 : cellD m 0 0 = 0) :
    ∀ (draws : List ℚ) (current : ℕ) (l : List Char),
      (∀ x ∈ draws, 0 ≤ x) → genLoop m draws current = some l →
      l ≠ [] ∧ l.getLast? = some '.' ∧
        (∀ c ∈ l.dropLast, isLowerLetter c = true) ∧
        (current = 0 → 2 ≤ l.length) := by
  intro draws
  induction draws with
  | nil =>
    intro current l _ h
    exact absurd h (by simp [genLoop])
  | cons x rest ih =>
    intro current l hx h
    rw [genLoop] at h
    split at h
    · exact Option.noConfusion h
    rename_i row hrow
    split at h
    · exact Option.noConfusion h
    rename_i next hs
    · have hrowmem : row ∈ m := List.getElem?_mem hrow
      have hrowlen : row.length = 27 := hr row hrowmem
      have hnext : next = pickIndex row x := by
        rw [sample_next_char] at hs
        cases hok : weightedIndexNew row with
        | error e => rw [hok] at hs; exact Option.noConfusion hs
        | ok ws =>
          rw [hok] at hs
          have hws : ws = row := weightedIndexNew_ok hok
          rw [hws] at hs
          exact (Option.some.injEq _ _ ▸ hs).symm
      by_cases h0 : next = 0
      · rw [if_pos h0] at h
        have hl : l = [int_to_char next] := ((Option.some.injEq _ _).mp h).symm
        subst hl
        rw [h0]
        refine ⟨by simp, by simp [int_to_char], by simp, ?_⟩
        intro hcur
        exfalso
        subst hcur
        have hx0 : 0 ≤ x := hx x (List.mem_cons_self x rest)
        have hlt : pickIndex row x < row.length := by
          rw [← hnext, h0, hrowlen]
          omega
        obtain ⟨w, hw, hwpos⟩ :=
          pickIndex_pos_weight row x hx0 (hnn row hrowmem) hlt
        rw [← hnext, h0] at hw
        have hcell : cellD m 0 0 = w := by
          rw [cellD, hrow]
          simp [hw]
        rw [h00] at hcell
        rw [← hcell] at hwpos
        exact absurd hwpos (lt_irrefl 0)
      · rw [if_neg h0] at h
        obtain ⟨tail, htail, hl⟩ := Option.map_eq_some'.mp h
        obtain ⟨htne, htlast, htlow, _⟩ :=
          ih next tail (fun y hy => hx y (List.mem_cons_of_mem _ hy)) htail
        have hnlt : next < 27 := by
          have := genLoop_some_lt htail
          omega
        have hnle : 1 ≤ next := by omega
        have hclow : isLowerLetter (int_to_char next) = true :=
          int_to_char_lower hnle (by omega)
        obtain ⟨t0, ts, rfl⟩ : ∃ t0 ts, tail = t0 :: ts := by
          cases tail with
          | nil => exact absurd rfl htne
          | cons t0 ts => exact ⟨t0, ts, rfl⟩
        rw [← hl]
        refine ⟨by simp, ?_, ?_, ?_⟩
        · rw [List.getLast?_cons_cons]
          exact htlast
        · intro c hc
          have hdl : (int_to_char next :: t0 :: ts).dropLast
              = int_to_char next :: (t0 :: ts).dropLast := by simp
          rw [hdl] at hc
          rcases List.mem_cons.mp hc with rfl | hc
          · exact hclow
          · exact htlow c hc
        · intro _
          simp

set_option maxRecDepth 16000

/-! ### Claims -/

/-- Claim C1 (code-bug evaluation): on the corpus `[".emma."]` with
smoothing `1.0`, row 0 of the matrix returned by `create_bigram_matrix`
sums to `27.0` and row 5 (letter `e`) sums to `14.0` — not `1.0` as the
claim states.  The code initializes every row's running total to
`smoothing as i64` (here `1`), not to the smoothing constant scaled by
27, so the normalization denominators are far smaller than the row
masses. -/
theorem C1_row_sums_bug :
    (create_bigram_matrix [emmaName] 1).map (fun m => rowSumD m 0) = some 27 ∧
    (create_bigram_matrix [emmaName] 1).map (fun m => rowSumD m 5) = some 14 ∧
    (27 : ℚ) ≠ 1 := by
  refine ⟨by decide, by decide, by norm_num⟩

/-- Claim C2 counterexample: on the corpus consisting of the degenerate
normalized name `".."` (which `clean_name` produces for a line with no
alphabetic character) and smoothing `1.0`, cell `(0,0)` of the built
matrix is `1.0`, not `0.0` — the counting loop does increment it — and
`likelihood_of_word ".."` on that matrix is `1.0`, not `0.0`. -/
theorem C2_counterexample :
    isNormalizedName ddName = true ∧
    (create_bigram_matrix [ddName] 1).map (fun m => cellD m 0 0) = some 1 ∧
    (create_bigram_matrix [ddName] 1).bind (likelihood_of_word ddName) = some 1 ∧
    (1 : ℚ) ≠ 0 := by
  refine ⟨by decide, by decide, by decide, by norm_num⟩

/-- Claim C2 as amended: for every smoothing value and every nonempty
corpus of normalized names in which the degenerate name `".."` does not
occur, cell `(0,0)` of the built matrix is exactly `0` (row 0's total is
positive, so the `0/total` division is honest) and
`likelihood_of_word ".."` on that matrix is `0`. -/
theorem C2_amended (names : List (List Char)) (s : ℚ) (hne : names ≠ [])
    (hnames : ∀ n ∈ names, isNormalizedName n = true ∧ n ≠ ['.', '.']) :
    ∃ M, create_bigram_matrix names s = some M ∧
      1 ≤ prow (bigPairs names) 0 ∧ cellD M 0 0 = 0 ∧
      likelihood_of_word ddName M = some 0 := by
  have hnorm : ∀ n ∈ names, isNormalizedName n = true := fun n hn => (hnames n hn).1
  have hne' : ∀ n ∈ names, n ≠ [] := fun n hn => normalized_ne_nil (hnorm n hn)
  have hidx : ∀ p ∈ bigPairs names, bigramIdx p.1 < 27 ∧ bigramIdx p.2 < 27 :=
    bigPairs_idx_lt (fun n hn => normalized_chars (hnorm n hn))
  obtain ⟨M, hM, hMlen, hMrows, hcells⟩ := create_cells names s hne' hidx
  have hc00 : cellD M 0 0 = 0 := by
    rw [hcells 0 0 (by norm_num) (by norm_num), pcount00_eq_zero hnames]
    simp
  refine ⟨M, hM, prow0_pos hne hnorm, hc00, ?_⟩
  rw [likelihood_eq_prod (by decide) (by decide) hMlen hMrows]
  have hpair : pairsOfName ddName = [('.', '.')] := rfl
  rw [hpair]
  simp only [List.map_cons, List.map_nil, List.prod_cons, List.prod_nil, mul_one]
  have hidx0 : bigramIdx '.' = 0 := rfl
  rw [hidx0, hc00]

/-- Witness for the amended claim C2 at the concrete corpus `[".emma."]`. -/
theorem C2_amended_witness :
    ∃ M, create_bigram_matrix [emmaName] 1 = some M ∧
      1 ≤ prow (bigPairs [emmaName]) 0 ∧ cellD M 0 0 = 0 ∧
      likelihood_of_word ddName M = some 0 :=
  C2_amended [emmaName] 1 (by decide) (by decide)

/-- Claim C3 counterexample: with smoothing `0.5 ≥ 0` and the corpus
`[".emma."]`, the row total of row 2 (letter `b`) at the normalization
step is `0`: the code truncates the smoothing constant with `as i64`
before seeding the totals, so smoothing below `1` contributes nothing and
rows of unobserved letters divide by zero (in Rust `f64`, silently
producing `inf`, not an error). -/
theorem C3_counterexample :
    (0 : ℚ) ≤ 1/2 ∧ isNormalizedName emmaName = true ∧
    (buildCounts [emmaName] (1/2)).map (fun st => totD st.2 2) = some 0 := by
  refine ⟨by norm_num, by decide, by decide⟩

/-- Claim C3 as amended: for every smoothing whose `i64` truncation is at
least `1` (in particular every real `s ≥ 1`) and every nonempty corpus of
normalized names, every row total at the normalization step is at least
`1` — rows `1..26` keep the truncated smoothing mass and row 0 collects
one boundary-initial bigram per name — so no division by zero occurs and
the builder completes without error. -/
theorem C3_amended (names : List (List Char)) (s : ℚ) (hs : 1 ≤ i64OfRat s)
    (hne : names ≠ []) (hnames : ∀ n ∈ names, isNormalizedName n = true) :
    ∃ M T, buildCounts names s = some (M, T) ∧
      (∀ i, i < 27 → 1 ≤ totD T i) ∧
      (create_bigram_matrix names s).isSome = true := by
  have hne' : ∀ n ∈ names, n ≠ [] := fun n hn => normalized_ne_nil (hnames n hn)
  have hidx : ∀ p ∈ bigPairs names, bigramIdx p.1 < 27 ∧ bigramIdx p.2 < 27 :=
    bigPairs_idx_lt (fun n hn => normalized_chars (hnames n hn))
  obtain ⟨M, T, hMT, _, _, htots⟩ := buildCounts_char names s hne' hidx
  refine ⟨M, T, hMT, ?_, by simp [create_bigram_matrix, hMT]⟩
  intro i hi
  rw [htots i hi]
  by_cases h0 : i = 0
  · rw [if_pos h0]
    have := prow0_pos hne hnames
    have hcast : (1 : ℤ) ≤ (prow (bigPairs names) 0 : ℤ) := by exact_mod_cast this
    rw [h0]
    omega
  · rw [if_neg h0]
    have : (0 : ℤ) ≤ (prow (bigPairs names) i : ℤ) := by positivity
    omega

/-- Witness for the amended claim C3 at the corpus `[".emma."]` with
smoothing `1`. -/
theorem C3_amended_witness :
    ∃ M T, buildCounts [emmaName] 1 = some (M, T) ∧
      (∀ i, i < 27 → 1 ≤ totD T i) ∧
      (create_bigram_matrix [emmaName] 1).isSome = true :=
  C3_amended [emmaName] 1 (by decide) (by decide) (by decide)

/-- Claim C6 counterexample: on the empty input string the scorer does
not return `1.0`: the loop bound `word.len() - 1` underflows `usize` and
the function panics (`none` in this model) for every matrix, in
particular the freshly initialized one. -/
theorem C6_counterexample : likelihood_of_word [] (initMatrix 1) = none := by decide

/-- Claim C6 as amended: every one-character ASCII input string (one byte,
so Rust's loop bound `word.len() - 1` is `0` and the loop body never
runs) yields the empty product `1.0`, for every matrix and without
error; the empty string instead panics on the underflowing loop bound.
A single non-ASCII character is excluded: its byte length is at least 2,
so the code runs the loop and panics on its byte windows. -/
theorem C6_amended :
    (∀ (c : Char) (m : Mat), c.toNat ≤ 127 → likelihood_of_word [c] m = some 1) ∧
    (∀ m : Mat, likelihood_of_word [] m = none) := by
  constructor
  · intro c m _
    rw [likelihood_of_word, if_neg (by simp)]
    rfl
  · intro m
    rw [likelihood_of_word, if_pos rfl]

/-- Witness for the amended claim C6 at the concrete ASCII character `q`
and the empty string, against the initial matrix. -/
theorem C6_amended_witness :
    likelihood_of_word ['q'] (initMatrix 1) = some 1 ∧
    likelihood_of_word [] (initMatrix 1) = none :=
  ⟨C6_amended.1 'q' (initMatrix 1) (by decide), C6_amended.2 (initMatrix 1)⟩

/-- Claim C4 counterexample: on the single-character input `é` (U+00E9),
which Rust's `char::is_alphabetic` accepts and whose lowercase is itself,
`clean_name` returns `".é."` whose interior character lies outside the
27-symbol alphabet. -/
theorem C4_counterexample :
    clean_name [Char.ofNat 233] = ['.', Char.ofNat 233, '.'] ∧
    isAlphabetChar (Char.ofNat 233) = false ∧
    isLowerLetter (Char.ofNat 233) = false := by
  refine ⟨by decide, by decide, by decide⟩

/-- Claim C4 as amended: for every raw input string `clean_name` starts
and ends with the boundary dot; for every raw input string consisting of
ASCII characters the result is moreover a Normalized Name (its interior
only lowercase ASCII letters); and `clean_name "Ab3c!" = ".abc."`. -/
theorem C4_amended :
    (∀ name : List Char, (clean_name name).head? = some '.' ∧
      (clean_name name).getLast? = some '.') ∧
    (∀ name : List Char, (∀ c ∈ name, c.toNat ≤ 127) →
      isNormalizedName (clean_name name) = true) ∧
    clean_name ['A', 'b', '3', 'c', '!'] = ['.', 'a', 'b', 'c', '.'] := by
  refine ⟨fun name => ⟨clean_name_head name, clean_name_last name⟩, ?_, by decide⟩
  intro name hascii
  rw [isNormalizedName_iff]
  refine ⟨(name.filter rustIsAlphabetic).flatMap rustToLowercase, ?_, ?_⟩
  · have := clean_name_interior_lower hascii
    rwa [clean_name_interior] at this
  · rw [clean_name, List.cons_append]

/-- Witness for the amended claim C4: `clean_name` on the ASCII input
`"Ab3c!"` is boundary-delimited and a Normalized Name. -/
theorem C4_amended_witness :
    (clean_name ['A', 'b', '3', 'c', '!']).head? = some '.' ∧
    (clean_name ['A', 'b', '3', 'c', '!']).getLast? = some '.' ∧
    isNormalizedName (clean_name ['A', 'b', '3', 'c', '!']) = true :=
  ⟨(C4_amended.1 ['A', 'b', '3', 'c', '!']).1,
    (C4_amended.1 ['A', 'b', '3', 'c', '!']).2,
    C4_amended.2.1 ['A', 'b', '3', 'c', '!'] (by decide)⟩

/-- Claim C5: for every word over the 27-symbol alphabet of length at
least 2 and every 27×27 matrix, the scorer returns exactly the product,
over the adjacent pairs of the word, of the matrix cells indexed by the
spec's symbol mapping (boundary to 0, letters to 1..26), starting from
the accumulator `1.0`. -/
theorem C5_likelihood_is_product (word : List Char) (m : Mat)
    (hlen : 2 ≤ word.length) (hall : ∀ c ∈ word, isAlphabetChar c = true)
    (hm : m.length = 27) (hr : ∀ row ∈ m, row.length = 27) :
    likelihood_of_word word m =
      some (((pairsOfName word).map
        (fun p => cellD m (specIdx p.1) (specIdx p.2))).prod) := by
  have hw : word ≠ [] := by
    intro h
    rw [h] at hlen
    simp at hlen
  rw [likelihood_eq_prod hw hall hm hr]
  have hmapeq : (pairsOfName word).map
        (fun p => cellD m (bigramIdx p.1) (bigramIdx p.2)) =
      (pairsOfName word).map (fun p => cellD m (specIdx p.1) (specIdx p.2)) := by
    apply List.map_congr_left
    intro p hp
    obtain ⟨h1, h2⟩ := List.of_mem_zip hp
    rw [(bigramIdx_alpha (hall _ h1)).2,
      (bigramIdx_alpha (hall _ (List.mem_of_mem_tail h2))).2]
  rw [hmapeq]

/-- Witness for claim C5: on the corpus `[".emma."]` with smoothing `1`,
the score of `".emma."` is the product of the five transition values
along the path, concretely `8/9`. -/
theorem C5_witness :
    ∃ M, create_bigram_matrix [emmaName] 1 = some M ∧
      likelihood_of_word emmaName M =
        some (((pairsOfName emmaName).map
          (fun p => cellD M (specIdx p.1) (specIdx p.2))).prod) ∧
      likelihood_of_word emmaName M = some (8/9) := by
  refine ⟨(create_bigram_matrix [emmaName] 1).getD [], by decide,
    C5_likelihood_is_product emmaName ((create_bigram_matrix [emmaName] 1).getD [])
      (by decide) (by decide) (by decide) (by decide), by decide⟩

/-- Claim C8 counterexample: on a weight row summing to zero,
`WeightedIndex::new` fails with the zero-total error, but
`sample_next_char` does not return that error to its caller: it
`.unwrap()`s and panics (modelled by `none`), aborting instead of
returning an error indicator. -/
theorem C8_counterexample :
    (List.replicate 27 (0 : ℚ)).sum = 0 ∧
    weightedIndexNew (List.replicate 27 (0 : ℚ)) = .error .allWeightsZero ∧
    sample_next_char (List.replicate 27 (0 : ℚ)) 0 = none := by
  refine ⟨by decide, by rfl, by rfl⟩

/-- Claim C8 as amended: for every nonempty, nonnegative weight row
summing to zero and every draw, the weighted-index construction fails
explicitly with the zero-total error (no infinite loop, no division), and
`sample_next_char` propagates the failure by panicking on its `unwrap`
(`none`), rather than returning an error value to the caller. -/
theorem C8_amended (row : List ℚ) (x : ℚ) (hne : row ≠ [])
    (hnn : ∀ w ∈ row, 0 ≤ w) (hsum : row.sum = 0) :
    weightedIndexNew row = .error .allWeightsZero ∧
    sample_next_char row x = none := by
  have h1 : row.isEmpty = false := by
    simp [List.isEmpty_iff, hne]
  have h2 : row.any (fun w => decide (w < 0)) = false := by
    rw [List.any_eq_false]
    intro w hw
    simp [not_lt.mpr (hnn w hw)]
  have hw : weightedIndexNew row = .error .allWeightsZero := by
    rw [weightedIndexNew]
    simp only [h1, Bool.false_eq_true, if_false, h2, if_pos hsum]
  refine ⟨hw, ?_⟩
  rw [sample_next_char, hw]

/-- Witness for the amended claim C8 at the all-zero 27-weight row. -/
theorem C8_amended_witness :
    weightedIndexNew (List.replicate 27 (0 : ℚ)) = .error .allWeightsZero ∧
    sample_next_char (List.replicate 27 (0 : ℚ)) 0 = none :=
  C8_amended (List.replicate 27 0) 0 (by decide) (by decide) (by decide)

/-- Claim C7 counterexample: on the matrix built from the corpus
`[".."]` (whose cell `(0,0)` is `1`, see the C2 analysis), the single
draw `0` — a legitimate uniform draw, `0 ≤ 0 < 27`, the row-0 total
weight — makes the generation loop terminate immediately and output
`".."`: two consecutive boundary symbols with no letter between them. -/
theorem C7_counterexample :
    ∃ M, create_bigram_matrix [ddName] 1 = some M ∧
      generate M [0] = some ['.', '.'] ∧
      hasDoubleDot ['.', '.'] = true ∧
      (0 : ℚ) ≤ 0 ∧ (0 : ℚ) < rowSumD M 0 := by
  refine ⟨(create_bigram_matrix [ddName] 1).getD [], by decide, by decide, by decide,
    le_refl 0, by decide⟩

/-- Claim C7 as amended: for every 27×27 matrix with nonnegative entries
whose cell `(0,0)` is zero (as the builder produces on corpora without
the degenerate name; not in general), every terminating run of the
generation loop under nonnegative draws emits a Normalized Name of
length at least 3: no two consecutive boundary symbols, the final
character is the terminating boundary, and at least one letter precedes
it. -/
theorem C7_amended (m : Mat) (draws : List ℚ) (out : List Char)
    (hm : m.length = 27) (hr : ∀ row ∈ m, row.length = 27)
    (hnn : ∀ row ∈ m, ∀ w ∈ row, 0 ≤ w) (h00 : cellD m 0 0 = 0)
    (hx : ∀ x ∈ draws, 0 ≤ x) (hgen : generate m draws = some out) :
    hasDoubleDot out = false ∧ isNormalizedName out = true ∧
      3 ≤ out.length ∧ out.getLast? = some '.' := by
  obtain ⟨l, hloop, hl⟩ := Option.map_eq_some'.mp hgen
  obtain ⟨hlne, hllast, hllow, hlen⟩ := genLoop_spec hm hr hnn h00 draws 0 l hx hloop
  have hlen2 : 2 ≤ l.length := hlen rfl
  obtain ⟨l0, l1, ls, rfl⟩ : ∃ l0 l1 ls, l = l0 :: l1 :: ls := by
    match l, hlen2 with
    | l0 :: l1 :: ls, _ => exact ⟨l0, l1, ls, rfl⟩
  have hout : out = '.' :: l0 :: l1 :: ls := by
    rw [← hl]
    rfl
  have hl0 : isLowerLetter l0 = true := by
    apply hllow
    simp
  have hmid : ∀ c ∈ (l0 :: l1 :: ls).dropLast, isLowerLetter c = true := hllow
  subst hout
  refine ⟨?_, ?_, by simp, ?_⟩
  · rw [hasDoubleDot, List.any_eq_false]
    intro p hp
    have hp' : p ∈ pairsOfName ('.' :: l0 :: l1 :: ls) := hp
    have hps : pairsOfName ('.' :: l0 :: l1 :: ls)
        = ('.', l0) :: pairsOfName (l0 :: l1 :: ls) := rfl
    rw [hps] at hp'
    simp only [Bool.and_eq_true, beq_iff_eq, not_and]
    intro hp1 hp2
    rcases List.mem_cons.mp hp' with rfl | hp'
    · exact absurd hp2 (lower_ne_dot hl0)
    · have hfst := pairsOfName_fst_mem_dropLast _ p hp'
      exact absurd hp1 (lower_ne_dot (hmid _ hfst))
  · rw [isNormalizedName_iff]
    have hsplit : l0 :: l1 :: ls = (l0 :: l1 :: ls).dropLast ++ ['.'] := by
      have := List.dropLast_append_getLast? '.' hllast
      rw [this]
    refine ⟨(l0 :: l1 :: ls).dropLast, List.all_eq_true.mpr hmid, ?_⟩
    rw [List.cons_append, ← hsplit]
  · have : ('.' :: l0 :: l1 :: ls).getLast? = (l0 :: l1 :: ls).getLast? :=
      List.getLast?_cons_cons
    rw [this]
    exact hllast

/-- Witness for the amended claim C7: the matrix built from `[".emma."]`
has zero in cell `(0,0)`; the draws `[0, 0]` generate the normalized
name `".a."`. -/
theorem C7_amended_witness :
    hasDoubleDot ['.', 'a', '.'] = false ∧
      isNormalizedName ['.', 'a', '.'] = true ∧
      3 ≤ (['.', 'a', '.'] : List Char).length ∧
      (['.', 'a', '.'] : List Char).getLast? = some '.' :=
  C7_amended ((create_bigram_matrix [emmaName] 1).getD []) [0, 0] ['.', 'a', '.']
    (by decide) (by decide) (by decide) (by decide) (by decide) (by decide)

/-- Claim C9 counterexample, refuting both monotonicity directions on the
code as written.  Zero-count direction: on the corpus `[".emma."]` with
smoothing values `3/2 < 2` (both admissible under the claim), the
zero-count cell `(2,1)` (bigram `b→a`) moves from `3/2` down to `1` — not
strictly up — because the truncated totals jump at integers.  Many-count
direction: on a corpus with fifteen observations of `m→m`, raising the
smoothing from `1` to `2` moves cell `(13,13)` up from `16/19` to
`17/20` — not down-or-equal. -/
theorem C9_counterexample :
    ((1 : ℚ) ≤ 3/2 ∧ (3/2 : ℚ) < 2) ∧
    (pcount (bigPairs [emmaName]) 2 1 = 0 ∧
      (create_bigram_matrix [emmaName] (3/2)).map (fun m => cellD m 2 1) = some (3/2) ∧
      (create_bigram_matrix [emmaName] 2).map (fun m => cellD m 2 1) = some 1 ∧
      ¬ ((3/2 : ℚ) < 1)) ∧
    (pcount (bigPairs [mmName, mmName, mmName]) 13 13 = 15 ∧
      (create_bigram_matrix [mmName, mmName, mmName] 1).map
        (fun m => cellD m 13 13) = some (16/19) ∧
      (create_bigram_matrix [mmName, mmName, mmName] 2).map
        (fun m => cellD m 13 13) = some (17/20) ∧
      ¬ ((17/20 : ℚ) ≤ 16/19)) := by
  refine ⟨⟨by norm_num, by norm_num⟩,
    ⟨by decide, by decide, by decide, by norm_num⟩,
    ⟨by decide, by decide, by decide, by norm_num⟩⟩

/-- Claim C9 as amended: under the code's normalization, for a fixed
corpus of normalized names and two smoothing values `1 ≤ s₁ < s₂` that
are fixed by the `i64` truncation (integer-valued, in range), every cell
of rows `1..26` is monotonically nondecreasing in the smoothing, and a
zero-count cell in a row with at least one observation strictly
increases; no cell of those rows ever decreases, so the claim's
"many observed counts decrease" direction has no instance. -/
theorem C9_amended (names : List (List Char)) (s₁ s₂ : ℚ) (i j : ℕ)
    (hnames : ∀ n ∈ names, isNormalizedName n = true)
    (hs₁ : 1 ≤ s₁) (h12 : s₁ < s₂)
    (ht₁ : ((i64OfRat s₁ : ℤ) : ℚ) = s₁) (ht₂ : ((i64OfRat s₂ : ℤ) : ℚ) = s₂)
    (hi1 : 1 ≤ i) (hi : i < 27) (hj : j < 27) :
    ∃ M₁ M₂, create_bigram_matrix names s₁ = some M₁ ∧
      create_bigram_matrix names s₂ = some M₂ ∧
      cellD M₁ i j ≤ cellD M₂ i j ∧
      (pcount (bigPairs names) i j = 0 → 1 ≤ prow (bigPairs names) i →
        cellD M₁ i j < cellD M₂ i j) := by
  have hne' : ∀ n ∈ names, n ≠ [] := fun n hn => normalized_ne_nil (hnames n hn)
  have hidx : ∀ p ∈ bigPairs names, bigramIdx p.1 < 27 ∧ bigramIdx p.2 < 27 :=
    bigPairs_idx_lt (fun n hn => normalized_chars (hnames n hn))
  obtain ⟨M₁, hM₁, _, _, hcells₁⟩ := create_cells names s₁ hne' hidx
  obtain ⟨M₂, hM₂, _, _, hcells₂⟩ := create_cells names s₂ hne' hidx
  have hi0 : ¬ i = 0 := by omega
  set c : ℚ := (pcount (bigPairs names) i j : ℚ) with hc
  set R : ℚ := (prow (bigPairs names) i : ℚ) with hR
  have hcnn : 0 ≤ c := by positivity
  have hRnn : 0 ≤ R := by positivity
  have hcR : c ≤ R := by
    rw [hc, hR]
    exact_mod_cast pcount_le_prow (bigPairs names) i j
  have hv₁ : cellD M₁ i j = (s₁ + c) / (s₁ + R) := by
    rw [hcells₁ i j hi hj]
    simp only [hi0, if_neg, false_and, if_false]
    push_cast [ht₁]
    ring_nf
  have hv₂ : cellD M₂ i j = (s₂ + c) / (s₂ + R) := by
    rw [hcells₂ i j hi hj]
    simp only [hi0, if_neg, false_and, if_false]
    push_cast [ht₂]
    ring_nf
  have hd₁ : 0 < s₁ + R := by linarith
  have hd₂ : 0 < s₂ + R := by linarith
  refine ⟨M₁, M₂, hM₁, hM₂, ?_, ?_⟩
  · rw [hv₁, hv₂, div_le_div_iff₀ hd₁ hd₂]
    nlinarith [mul_nonneg (sub_nonneg.mpr h12.le) (sub_nonneg.mpr hcR)]
  · intro hc0 hR1
    have hc0' : c = 0 := by
      rw [hc, hc0]
      norm_num
    have hR1' : 1 ≤ R := by
      rw [hR]
      exact_mod_cast hR1
    rw [hv₁, hv₂, div_lt_div_iff₀ hd₁ hd₂, hc0']
    nlinarith [mul_pos (sub_pos.mpr h12) (lt_of_lt_of_le zero_lt_one hR1')]

/-- Witness for the amended claim C9 at the corpus `[".emma."]`, cell
`(5,13)` (bigram `e→m`), with smoothings `1 < 2`. -/
theorem C9_amended_witness :
    ∃ M₁ M₂, create_bigram_matrix [emmaName] 1 = some M₁ ∧
      create_bigram_matrix [emmaName] 2 = some M₂ ∧
      cellD M₁ 5 13 ≤ cellD M₂ 5 13 ∧
      (pcount (bigPairs [emmaName]) 5 13 = 0 → 1 ≤ prow (bigPairs [emmaName]) 5 →
        cellD M₁ 5 13 < cellD M₂ 5 13) :=
  C9_amended [emmaName] 1 2 5 13 (by decide) (by decide) (by decide) (by decide)
    (by decide) (by decide) (by decide) (by decide)

/-- Claim C10: every character of the 27-symbol alphabet maps to an index
in `[0, 26]` agreeing with the spec mapping; on nonempty alphabet-only
words every matrix and string access of the scorer is in bounds (it
returns a value), and on corpora of nonempty alphabet-only names the
builder completes; the precondition is needed: `clean_name` can emit the
non-ASCII letter `é`, whose computed index `137` is out of range. -/
theorem C10_index_safety :
    (∀ c : Char, isAlphabetChar c = true → bigramIdx c ≤ 26 ∧ bigramIdx c = specIdx c) ∧
    (∀ (word : List Char) (m : Mat), word ≠ [] →
      (∀ c ∈ word, isAlphabetChar c = true) → m.length = 27 →
      (∀ row ∈ m, row.length = 27) → (likelihood_of_word word m).isSome = true) ∧
    (∀ (names : List (List Char)) (s : ℚ),
      (∀ n ∈ names, n ≠ [] ∧ (∀ c ∈ n, isAlphabetChar c = true)) →
      (create_bigram_matrix names s).isSome = true) ∧
    (rustIsAlphabetic (Char.ofNat 233) = true ∧ bigramIdx (Char.ofNat 233) = 137 ∧
      clean_name [Char.ofNat 233] = ['.', Char.ofNat 233, '.']) := by
  refine ⟨fun c hc => bigramIdx_alpha hc, ?_, ?_, by decide, by decide, by decide⟩
  · intro word m hw hall hm hr
    rw [likelihood_eq_prod hw hall hm hr]
    rfl
  · intro names s h
    obtain ⟨M, hM, _⟩ := create_cells names s (fun n hn => (h n hn).1)
      (bigPairs_idx_lt (fun n hn => (h n hn).2))
    rw [hM]
    rfl

/-- Witness for claim C10: the scorer succeeds on `".emma."` against the
initial matrix, and the builder succeeds on the corpus
`[".emma.", ".."]` with fractional smoothing. -/
theorem C10_index_safety_witness :
    (likelihood_of_word emmaName (initMatrix 1)).isSome = true ∧
    (create_bigram_matrix [emmaName, ddName] (1/2)).isSome = true :=
  ⟨C10_index_safety.2.1 emmaName (initMatrix 1) (by decide) (by decide) (by decide)
      (by decide),
    C10_index_safety.2.2.1 [emmaName, ddName] (1/2) (by decide)⟩

end

end RustyBigram
